import Mathlib

/-!
Verification of the balanced spatial-index construction subsystem of the
FIT1008 repository: the order-statistics binary search tree
(`src/Assignment 3/bst.py`), the percentile container
(`src/Assignment 3/ratio.py`), the 3-D spatial index
(`src/Assignment 3/threedeebeetree.py`) and the balancing algorithm
(`src/Assignment 3/balancing.py`).

Python machine integers are arbitrary precision, so keys, subtree sizes and
length counters are embedded as `Int`.  Percentages handed to
`Percentiles.ratio` are Python floats; they are embedded as rationals `ℚ`
(every concrete percentage appearing in the repository — 15, 66 and 12.5 —
is computed exactly by both).  Python exceptions are embedded with
`Except String`: a raised `ValueError`/`KeyError` is an `.error` carrying
the message string, and an operation that raises produces no mutation,
matching the Python code where the raise happens before any field
assignment on the access path.
-/

namespace FIT1008

/-- Error message of `bst.py` line 154 (`ValueError` on duplicate insert). -/
def dupItemMsg : String := "Inserting duplicate item"

/-- Error message of `bst.py` line 190 (`ValueError` on deleting a missing key). -/
def delItemMsg : String := "Deleting non-existent item"

/-- Modelled from the spec: the file `node.py` imported by `bst.py`
(`from node import TreeNode`) is not part of the provided sources.  Per
spec §3, an order-statistics node owns `key`, `item`, nullable `left` and
`right` children and `subtree_size`; a node is created on insert counting
only itself, so its initial `subtree_size` is 1 (`bst.py` line 142 creates
`TreeNode(key, item=item)` relying on that default).  The `nil`
constructor plays the role of Python's `None`; `node l k it sz r` stores
`left`, `key`, `item`, `subtree_size`, `right`. -/
inductive TreeNode (α : Type) where
  | nil : TreeNode α
  | node : TreeNode α → Int → α → Int → TreeNode α → TreeNode α
deriving DecidableEq

namespace TreeNode

variable {α : Type}

/-- Python `current.subtree_size if current else 0`: the stored size field, with
Python's `None` contributing 0 (pattern of `bst.py` lines 352, and
`ratio.py` line 91). -/
def storedSize : TreeNode α → Int
  | nil => 0
  | node _ _ _ sz _ => sz

/-- Actual number of nodes in the subtree (specification-side count). -/
def count : TreeNode α → Nat
  | nil => 0
  | node l _ _ _ r => 1 + count l + count r

/-- Keys in in-order (left, root, right) sequence (specification-side). -/
def inorderKeys : TreeNode α → List Int
  | nil => []
  | node l k _ _ r => inorderKeys l ++ k :: inorderKeys r

/-- Key stored at the root of a subtree; 0 for the absent tree (only ever
read on real nodes). -/
def keyOf : TreeNode α → Int
  | nil => 0
  | node _ k _ _ _ => k

/-- Method `BinarySearchTree.insert_aux` (`bst.py` lines 128-156).  Returns the
rewritten subtree together with the increment applied to `self.length`
(the `self.length += 1` of line 143 happens exactly at the created leaf).
Raising `ValueError('Inserting duplicate item')` is the `.error` case; in
Python the raise aborts every pending `current.left = ...` /
`current.subtree_size += 1` on the path, so the tree is unchanged. -/
def insert_aux : TreeNode α → Int → α → Except String (TreeNode α × Int)
  | nil, key, item => .ok (node nil key item 1 nil, 1)
  | node l k it sz r, key, item =>
    if key < k then
      match insert_aux l key item with
      | .ok (l2, d) => .ok (node l2 k it (sz + 1) r, d)
      | .error e => .error e
    else if key > k then
      match insert_aux r key item with
      | .ok (r2, d) => .ok (node l k it (sz + 1) r2, d)
      | .error e => .error e
    else
      .error dupItemMsg

/-- Method `BinarySearchTree.get_minimal` (`bst.py` lines 260-274): leftmost node
of the subtree.  The `nil` case is unreachable in the Python code (the
method is only invoked on a real node) and returns `nil`. -/
def get_minimal : TreeNode α → TreeNode α
  | nil => nil
  | node nil k it sz r => node nil k it sz r
  | node (node ll lk lit lsz lr) k it sz r =>
    get_minimal (node ll lk lit lsz lr)

/-- Python's `current is None` test; `BinarySearchTree.is_leaf`
(`bst.py` lines 281-288) is `isNil left && isNil right`. -/
def isNil : TreeNode α → Bool
  | nil => true
  | node _ _ _ _ _ => false

/-- Method `BinarySearchTree.delete_aux` (`bst.py` lines 177-237).  Returns the
rewritten subtree and the decrement applied to `self.length`.  The
successor of a two-child node is `get_minimal` of its right subtree
(`get_successor`, lines 239-254, with `current.right` non-`None` in this
branch); its key/item overwrite the current node and it is deleted from
the right subtree.  The inner `.nil` successor branch is unreachable
(`get_minimal` of a non-empty tree is a node). -/
def delete_aux : TreeNode α → Int → Except String (TreeNode α × Int)
  | nil, _ => .error delItemMsg
  | node l k it sz r, key =>
    if key < k then
      match delete_aux l key with
      | .ok (l2, d) => .ok (node l2 k it (sz - 1) r, d)
      | .error e => .error e
    else if key > k then
      match delete_aux r key with
      | .ok (r2, d) => .ok (node l k it (sz - 1) r2, d)
      | .error e => .error e
    else
      if isNil l && isNil r then .ok (nil, 1)
      else if isNil l then .ok (r, 1)
      else if isNil r then .ok (l, 1)
      else
        match get_minimal r with
        | nil => .error delItemMsg
        | node _ sk sit _ _ =>
          match delete_aux r sk with
          | .ok (r2, d) => .ok (node l sk sit (sz - 1) r2, d)
          | .error e => .error e

/-- Method `BinarySearchTree.kth_smallest` (`bst.py` lines 328-374), on the
subtree rooted at `current`, reading the stored `subtree_size` fields. -/
def kth_smallest (k : Int) : TreeNode α → Option (TreeNode α)
  | nil => none
  | node l key it sz r =>
    if sz < k then none
    else if sz = k ∧ k = 1 then some (node l key it sz r)
    else
      if storedSize l + 1 = k then some (node l key it sz r)
      else if storedSize l ≥ k then kth_smallest k l
      else kth_smallest (k - storedSize l - 1) r

/-- Method `Percentiles._ratio_aux` (`ratio.py` lines 66-107): pre-order
traversal appending `current.key` whenever
`front_index <= left_size + 1 <= rear_index`, then descending left with
the same indices and right with both indices shifted by
`left_size + 1`. -/
def ratio_aux : TreeNode α → Int → Int → List Int
  | nil, _, _ => []
  | node l k _ _ r, front, rear =>
    (if front ≤ storedSize l + 1 ∧ storedSize l + 1 ≤ rear then [k] else [])
      ++ ratio_aux l front rear
      ++ ratio_aux r (front - storedSize l - 1) (rear - storedSize l - 1)

/-- Specification-side check that every stored `subtree_size` equals the
real node count of its subtree (spec §8 "Size invariant"). -/
def sizesOk : TreeNode α → Bool
  | nil => true
  | node l _ _ sz r =>
    (sz == (1 + (count l : Int) + (count r : Int))) && sizesOk l && sizesOk r

/-- All keys of the subtree satisfy a (Boolean) predicate. -/
def allKeys (p : Int → Bool) : TreeNode α → Bool
  | nil => true
  | node l k _ _ r => p k && allKeys p l && allKeys p r

/-- Specification-side binary-search-tree ordering check (spec §3, §8). -/
def bstOk : TreeNode α → Bool
  | nil => true
  | node l k _ _ r =>
    allKeys (fun v => decide (v < k)) l && allKeys (fun v => decide (k < v)) r
      && bstOk l && bstOk r

end TreeNode

/-- Class `BinarySearchTree` object state: the `root` reference and the
`self.length` counter (`bst.py` lines 25-32). -/
structure OSTree (α : Type) where
  root : TreeNode α
  length : Int
deriving DecidableEq

namespace OSTree

variable {α : Type}

/-- Constructor `BinarySearchTree.__init__`. -/
def empty : OSTree α := ⟨TreeNode.nil, 0⟩

/-- Method `BinarySearchTree.__setitem__` (`bst.py` line 126), raising. -/
def setitemE (b : OSTree α) (key : Int) (item : α) :
    Except String (OSTree α) :=
  match TreeNode.insert_aux b.root key item with
  | .ok (r, d) => .ok ⟨r, b.length + d⟩
  | .error e => .error e

/-- Method `BinarySearchTree.__delitem__` (`bst.py` line 175), raising. -/
def delitemE (b : OSTree α) (key : Int) : Except String (OSTree α) :=
  match TreeNode.delete_aux b.root key with
  | .ok (r, d) => .ok ⟨r, b.length - d⟩
  | .error e => .error e

end OSTree

/-- One driver-level operation on a `BinarySearchTree`. -/
inductive BstOp (α : Type) where
  | ins : Int → α → BstOp α
  | del : Int → BstOp α

/-- Apply one operation; a raised exception propagates to the driver
before any assignment to `self.root`, leaving the object unchanged, and
the driver moves on (spec §7: a failing operation makes no visible
change). -/
def applyBstOp {α : Type} (b : OSTree α) : BstOp α → OSTree α
  | .ins k it =>
    match b.setitemE k it with
    | .ok b2 => b2
    | .error _ => b
  | .del k =>
    match b.delitemE k with
    | .ok b2 => b2
    | .error _ => b

/-- State after a sequence of operations starting from the empty tree. -/
def runBstOps {α : Type} (ops : List (BstOp α)) : OSTree α :=
  ops.foldl applyBstOp OSTree.empty

/-- Class `Percentiles` (`ratio.py` lines 10-17): wraps a `BinarySearchTree`
keyed by the stored values, payload `None` (here `Unit`). -/
structure Percentiles where
  points : OSTree Unit
deriving DecidableEq

namespace Percentiles

/-- Constructor `Percentiles.__init__`. -/
def empty : Percentiles := ⟨OSTree.empty⟩

/-- Method `Percentiles.add_point` (`ratio.py` line 19): `self.points[item] = None`;
a duplicate raises out of the call. -/
def add_point (p : Percentiles) (item : Int) : Except String Percentiles :=
  match p.points.setitemE item () with
  | .ok b => .ok ⟨b⟩
  | .error e => .error e

/-- Method `Percentiles.remove_point` (`ratio.py` line 31): `del self.points[item]`. -/
def remove_point (p : Percentiles) (item : Int) : Except String Percentiles :=
  match p.points.delitemE item with
  | .ok b => .ok ⟨b⟩
  | .error e => .error e

/-- Method `Percentiles.ratio` (`ratio.py` lines 46-61): `total_points` is the
`length` counter, `front_index = ceil(x / 100 * total_points)`,
`rear_index = total_points - ceil(y / 100 * total_points)`, then
`_ratio_aux(root, front_index + 1, rear_index)`.  The float percentages
are embedded as rationals. -/
def ratio (p : Percentiles) (x y : ℚ) : List Int :=
  let total : Int := p.points.length
  let front_index : Int := Int.ceil (x / 100 * (total : ℚ))
  let rear_index : Int := total - Int.ceil (y / 100 * (total : ℚ))
  TreeNode.ratio_aux p.points.root (front_index + 1) rear_index

/-- Insert a whole list of values in order, propagating the first raise
(the `for point in points: p.add_point(point)` driver pattern of
`ratio.py` lines 111-115). -/
def add_all (p : Percentiles) : List Int → Except String Percentiles
  | [] => .ok p
  | v :: vs =>
    match p.add_point v with
    | .ok p2 => add_all p2 vs
    | .error e => .error e

end Percentiles

/-! ## Spatial index (`threedeebeetree.py`) -/

/-- A 3-D integer point (`Point = Tuple[int, int, int]`). -/
abbrev Pt := Int × Int × Int

/-- Method `BeeNode.get_child_index` (`threedeebeetree.py` lines 33-77) computed
from the node's key `self` and the probed `point`: start from 0, add 1 if
`x >= self_x`, add 2 if `y >= self_y`, add 4 if `z >= self_z`. -/
def get_child_index (self point : Pt) : Nat :=
  (if point.1 ≥ self.1 then 1 else 0)
    + (if point.2.1 ≥ self.2.1 then 2 else 0)
    + (if point.2.2 ≥ self.2.2 then 4 else 0)

/-- Class `BeeNode` as a tree (`threedeebeetree.py` lines 10-18).  `children` is an
`ArrayR(8)` — `referential_array.py` is not under the provided sources,
but per spec §3 it is an array of exactly 8 nullable child slots, all
empty on creation — embedded as eight explicit subtree fields
`c0 … c7`, with `nil` for an empty slot.  A fresh node's `subtree_size`
defaults to 1 (dataclass default, line 17). -/
inductive BeeTree (α : Type) where
  | nil : BeeTree α
  | node : Pt → α → Int → BeeTree α → BeeTree α → BeeTree α → BeeTree α →
      BeeTree α → BeeTree α → BeeTree α → BeeTree α → BeeTree α
deriving DecidableEq

namespace BeeTree

variable {α : Type}

/-- Python `self.children[i]` for `i` in 0..7 (reads of an `ArrayR(8)`); any
index beyond 7 never occurs (`get_child_index` yields 0..7) and returns
the empty slot. -/
def child : BeeTree α → Nat → BeeTree α
  | nil, _ => nil
  | node _ _ _ c0 _ _ _ _ _ _ _, 0 => c0
  | node _ _ _ _ c1 _ _ _ _ _ _, 1 => c1
  | node _ _ _ _ _ c2 _ _ _ _ _, 2 => c2
  | node _ _ _ _ _ _ c3 _ _ _ _, 3 => c3
  | node _ _ _ _ _ _ _ c4 _ _ _, 4 => c4
  | node _ _ _ _ _ _ _ _ c5 _ _, 5 => c5
  | node _ _ _ _ _ _ _ _ _ c6 _, 6 => c6
  | node _ _ _ _ _ _ _ _ _ _ c7, 7 => c7
  | node _ _ _ _ _ _ _ _ _ _ _, _ => nil

/-- The point stored at a node ((0,0,0) for the absent tree; only ever
read on real nodes). -/
def keyB : BeeTree α → Pt
  | nil => ((0 : Int), (0 : Int), (0 : Int))
  | node k _ _ _ _ _ _ _ _ _ _ => k

/-- The stored `subtree_size` field (0 for an empty slot). -/
def storedSizeB : BeeTree α → Int
  | nil => 0
  | node _ _ sz _ _ _ _ _ _ _ _ => sz

/-- Actual number of nodes in the subtree (specification-side count). -/
def countB : BeeTree α → Nat
  | nil => 0
  | node _ _ _ c0 c1 c2 c3 c4 c5 c6 c7 =>
    1 + countB c0 + countB c1 + countB c2 + countB c3 + countB c4
      + countB c5 + countB c6 + countB c7

/-- Number of nodes of the subtree holding exactly the point `p`
(specification-side; used to observe duplicated keys). -/
def countKey (p : Pt) : BeeTree α → Nat
  | nil => 0
  | node k _ _ c0 c1 c2 c3 c4 c5 c6 c7 =>
    (if k = p then 1 else 0) + countKey p c0 + countKey p c1 + countKey p c2
      + countKey p c3 + countKey p c4 + countKey p c5 + countKey p c6
      + countKey p c7

/-- Whether some node of the subtree holds the point `p`. -/
def memB (p : Pt) (t : BeeTree α) : Bool :=
  countKey p t != 0

/-- Method `BeeNode.get_child_for_key` (`threedeebeetree.py` lines 21-31):
`self.children[self.get_child_index(point)]`. -/
def get_child_for_key (t : BeeTree α) (point : Pt) : BeeTree α :=
  child t (get_child_index (keyB t) point)

/-- Method `ThreeDeeBeeTree.insert_aux` (`threedeebeetree.py` lines 189-211): an
empty slot becomes a fresh leaf (`self.length += 1`); otherwise the key's
octant index is computed and insertion recurses into that child slot,
incrementing `subtree_size`.  There is no duplicate-key test of any kind:
a point equal to `current.key` gets octant index 7 (every coordinate is
`>=` itself) and descends into child 7.  The catch-all final branch is
index 7 (indices are always 0..7). -/
def insert_aux (t : BeeTree α) (key : Pt) (item : α) : BeeTree α :=
  match t with
  | nil => node key item 1 nil nil nil nil nil nil nil nil
  | node k it sz c0 c1 c2 c3 c4 c5 c6 c7 =>
    match get_child_index k key with
    | 0 => node k it (sz + 1) (insert_aux c0 key item) c1 c2 c3 c4 c5 c6 c7
    | 1 => node k it (sz + 1) c0 (insert_aux c1 key item) c2 c3 c4 c5 c6 c7
    | 2 => node k it (sz + 1) c0 c1 (insert_aux c2 key item) c3 c4 c5 c6 c7
    | 3 => node k it (sz + 1) c0 c1 c2 (insert_aux c3 key item) c4 c5 c6 c7
    | 4 => node k it (sz + 1) c0 c1 c2 c3 (insert_aux c4 key item) c5 c6 c7
    | 5 => node k it (sz + 1) c0 c1 c2 c3 c4 (insert_aux c5 key item) c6 c7
    | 6 => node k it (sz + 1) c0 c1 c2 c3 c4 c5 (insert_aux c6 key item) c7
    | _ => node k it (sz + 1) c0 c1 c2 c3 c4 c5 c6 (insert_aux c7 key item)

/-- Specification-side check that every stored `subtree_size` equals the
real node count of its subtree. -/
def sizesOkB : BeeTree α → Bool
  | nil => true
  | node _ _ sz c0 c1 c2 c3 c4 c5 c6 c7 =>
    (sz == (1 + (countB c0 : Int) + (countB c1 : Int) + (countB c2 : Int)
        + (countB c3 : Int) + (countB c4 : Int) + (countB c5 : Int)
        + (countB c6 : Int) + (countB c7 : Int)))
      && sizesOkB c0 && sizesOkB c1 && sizesOkB c2 && sizesOkB c3
      && sizesOkB c4 && sizesOkB c5 && sizesOkB c6 && sizesOkB c7

end BeeTree

/-- Class `ThreeDeeBeeTree` object state: `root` and the `self.length` counter
(`threedeebeetree.py` lines 82-89). -/
structure TDBT (α : Type) where
  root : BeeTree α
  length : Int
deriving DecidableEq

namespace TDBT

variable {α : Type}

/-- Constructor `ThreeDeeBeeTree.__init__`. -/
def empty : TDBT α := ⟨BeeTree.nil, 0⟩

/-- Method `ThreeDeeBeeTree.__setitem__` (`threedeebeetree.py` line 187):
`self.root = self.insert_aux(self.root, key, item)`.  `insert_aux` raises
nothing and always reaches its leaf-creation base case exactly once, so
`self.length` grows by 1. -/
def setitem (t : TDBT α) (key : Pt) (item : α) : TDBT α :=
  ⟨t.root.insert_aux key item, t.length + 1⟩

/-- State after inserting a sequence of (point, item) pairs in order
starting from the empty index. -/
def runInserts (ps : List (Pt × α)) : TDBT α :=
  ps.foldl (fun t pi => t.setitem pi.1 pi.2) empty

end TDBT

/-! ## Balancer (`balancing.py`) -/

/-- Loop of `balancing.py` lines 39-42: one pass over the coordinate list feeding
the x, y and z coordinate of each point into the three per-axis
`Percentiles` containers, in that order; the first duplicate coordinate on
any axis raises out of the loop. -/
def build_percentiles (px py pz : Percentiles) :
    List Pt → Except String (Percentiles × Percentiles × Percentiles)
  | [] => .ok (px, py, pz)
  | p :: ps =>
    match px.add_point p.1 with
    | .error e => .error e
    | .ok px2 =>
      match py.add_point p.2.1 with
      | .error e => .error e
      | .ok py2 =>
        match pz.add_point p.2.2 with
        | .error e => .error e
        | .ok pz2 => build_percentiles px2 py2 pz2 ps

/-- Loop of `balancing.py` lines 80-89: the bucket of remaining points whose
octant index relative to the chosen root is `i`, kept in list order. -/
def octant (root : Pt) (rest : List Pt) (i : Nat) : List Pt :=
  rest.filter (fun q => decide (get_child_index root q = i))

/-- Error text of the fuel guard of `make_ordering_aux`; never produced
when the fuel is at least the input length (see the doc comment there). -/
def fuelMsg : String := "fuel exhausted"

/-- Function `_make_ordering_aux` (`balancing.py` lines 17-104).  The Python
recursion always acts on a strict subset of its input (the chosen root is
removed before the octant buckets are built), so its call depth is
bounded by the input length; the structural `fuel` argument makes that
bound explicit, and `make_ordering` passes `pts.length`, which is always
sufficient.  Hitting `fuel = 0` yields the distinguished `fuelMsg` error,
which no other branch produces.

Steps, in source order: lists shorter than 18 are returned unchanged;
three per-axis `Percentiles` are built (a duplicate coordinate raises);
each is queried with `ratio(a, a)` for `a = 1/8*100 = 12.5`; the first
point whose three coordinates are members of the three returned lists
becomes the root (`None` → return the input unchanged); every point equal
to the root is filtered out; the rest is split into the 8 octant buckets
relative to the root; the result is the root followed by the recursive
orderings of buckets 0..7. -/
def make_ordering_aux : Nat → List Pt → Except String (List Pt)
  | fuel, pts =>
    if pts.length < 18 then .ok pts
    else
      match fuel with
      | 0 => .error fuelMsg
      | fuel2 + 1 =>
        match build_percentiles .empty .empty .empty pts with
        | .error e => .error e
        | .ok (px, py, pz) =>
          let a : ℚ := 1 / 8 * 100
          let vx := px.ratio a a
          let vy := py.ratio a a
          let vz := pz.ratio a a
          match pts.find? (fun p =>
              vx.contains p.1 && vy.contains p.2.1 && vz.contains p.2.2) with
          | none => .ok pts
          | some root =>
            let rest := pts.filter (fun q => decide (q ≠ root))
            do
              let r0 ← make_ordering_aux fuel2 (octant root rest 0)
              let r1 ← make_ordering_aux fuel2 (octant root rest 1)
              let r2 ← make_ordering_aux fuel2 (octant root rest 2)
              let r3 ← make_ordering_aux fuel2 (octant root rest 3)
              let r4 ← make_ordering_aux fuel2 (octant root rest 4)
              let r5 ← make_ordering_aux fuel2 (octant root rest 5)
              let r6 ← make_ordering_aux fuel2 (octant root rest 6)
              let r7 ← make_ordering_aux fuel2 (octant root rest 7)
              return root :: (r0 ++ r1 ++ r2 ++ r3 ++ r4 ++ r5 ++ r6 ++ r7)

/-- Function `make_ordering` (`balancing.py` lines 6-106). -/
def make_ordering (pts : List Pt) : Except String (List Pt) :=
  make_ordering_aux pts.length pts

/-! ## Specification-side helpers and concrete fixtures -/

/-- The elements of `xs` whose 1-indexed position lies in the inclusive
band `[f, r]`, in list order (specification-side rank-band selection). -/
def seg : List Int → Int → Int → List Int
  | [], _, _ => []
  | x :: xs, f, r => (if f ≤ 1 ∧ 1 ≤ r then [x] else []) ++ seg xs (f - 1) (r - 1)

/-- The keys 0,…,49 in ascending order. -/
def range50 : List Int := (List.range 50).map Int.ofNat

/-- An insertion order for {0..49} that puts 12 at the root of the BST. -/
def order12 : List Int := 12 :: range50.filter (fun v => decide (v ≠ 12))

/-- A fixed size-3 order-statistics tree with keys 10, 20, 30 (the result
of inserting 10, 20, 30 in that order), used by concrete witnesses. -/
def treeW : TreeNode Int :=
  TreeNode.node TreeNode.nil 10 0 3
    (TreeNode.node TreeNode.nil 20 0 2 (TreeNode.node TreeNode.nil 30 0 1 TreeNode.nil))

/-- The same fixture packaged as a `BinarySearchTree` object. -/
def ostreeW : OSTree Int := ⟨treeW, 3⟩

/-- The same fixture as a `Percentiles` container (payloads erased). -/
def percW : Percentiles :=
  ⟨⟨TreeNode.node TreeNode.nil 10 () 3
      (TreeNode.node TreeNode.nil 20 () 2 (TreeNode.node TreeNode.nil 30 () 1 TreeNode.nil)),
    3⟩⟩

/-- The `Percentiles` container obtained by inserting `order12` (12 first,
then the remaining values of {0..49} ascending) into an empty container. -/
def perc12 : Percentiles :=
  match Percentiles.add_all Percentiles.empty order12 with
  | .ok p => p
  | .error _ => Percentiles.empty

/-- Eighteen pairwise-distinct points of which the first two share their
x-coordinate (x values are 0,0,1,1,…,8,8). -/
def pts18 : List Pt :=
  (List.range 18).map (fun i => ((Int.ofNat i) / 2, Int.ofNat i, Int.ofNat i))

/-! # Helper lemmas: order-statistics tree -/

namespace TreeNode

variable {α : Type}

theorem sizesOk_node_iff {l r : TreeNode α} {k : Int} {it : α} {sz : Int} :
    sizesOk (node l k it sz r) = true ↔
      sz = 1 + (count l : Int) + (count r : Int) ∧
        sizesOk l = true ∧ sizesOk r = true := by
  simp [sizesOk, Bool.and_eq_true, and_assoc]

theorem bstOk_node_iff {l r : TreeNode α} {k : Int} {it : α} {sz : Int} :
    bstOk (node l k it sz r) = true ↔
      allKeys (fun v => decide (v < k)) l = true ∧
        allKeys (fun v => decide (k < v)) r = true ∧
        bstOk l = true ∧ bstOk r = true := by
  simp [bstOk, Bool.and_eq_true, and_assoc]

theorem storedSize_eq_count {t : TreeNode α} (h : sizesOk t = true) :
    storedSize t = (count t : Int) := by
  cases t with
  | nil => simp [storedSize, count]
  | node l k it sz r =>
    rcases sizesOk_node_iff.mp h with ⟨h1, -, -⟩
    simp [storedSize, count, h1]

theorem length_inorderKeys (t : TreeNode α) : (inorderKeys t).length = count t := by
  induction t with
  | nil => simp [inorderKeys, count]
  | node l k it sz r ihl ihr =>
    simp [inorderKeys, count, ihl, ihr]
    omega

theorem count_eq_zero_iff {t : TreeNode α} : count t = 0 ↔ t = nil := by
  cases t <;> simp [count]

theorem allKeys_iff {p : Int → Bool} {t : TreeNode α} :
    allKeys p t = true ↔ ∀ v ∈ inorderKeys t, p v = true := by
  induction t with
  | nil => simp [allKeys, inorderKeys]
  | node l k it sz r ihl ihr =>
    simp only [allKeys, Bool.and_eq_true, ihl, ihr, inorderKeys, List.mem_append,
      List.mem_cons]
    constructor
    · rintro ⟨⟨hk, hl⟩, hr⟩ v (hv | hv | hv)
      · exact hl v hv
      · exact hv ▸ hk
      · exact hr v hv
    · intro h
      exact ⟨⟨h k (Or.inr (Or.inl rfl)), fun v hv => h v (Or.inl hv)⟩,
        fun v hv => h v (Or.inr (Or.inr hv))⟩

theorem isNil_iff {t : TreeNode α} : isNil t = true ↔ t = nil := by
  cases t <;> simp [isNil]

theorem delete_aux_nil (key : Int) :
    delete_aux (nil : TreeNode α) key = .error delItemMsg := rfl

theorem delete_aux_node {l r : TreeNode α} {k : Int} {it : α} {sz : Int}
    (key : Int) :
    delete_aux (node l k it sz r) key =
      (if key < k then
        match delete_aux l key with
        | .ok (l2, d) => .ok (node l2 k it (sz - 1) r, d)
        | .error e => .error e
      else if key > k then
        match delete_aux r key with
        | .ok (r2, d) => .ok (node l k it (sz - 1) r2, d)
        | .error e => .error e
      else
        if isNil l && isNil r then .ok (nil, 1)
        else if isNil l then .ok (r, 1)
        else if isNil r then .ok (l, 1)
        else
          match get_minimal r with
          | nil => .error delItemMsg
          | node _ sk sit _ _ =>
            match delete_aux r sk with
            | .ok (r2, d) => .ok (node l sk sit (sz - 1) r2, d)
            | .error e => .error e) := rfl

theorem insert_aux_ok {t : TreeNode α} {key : Int} {x : α} {t2 : TreeNode α}
    {d : Int} (hs : sizesOk t = true) (h : insert_aux t key x = .ok (t2, d)) :
    d = 1 ∧ sizesOk t2 = true ∧ count t2 = count t + 1 ∧
      List.Perm (inorderKeys t2) (key :: inorderKeys t) := by
  induction t generalizing t2 d with
  | nil =>
    simp only [insert_aux, Except.ok.injEq, Prod.mk.injEq] at h
    rcases h with ⟨rfl, rfl⟩
    refine ⟨rfl, by simp [sizesOk, count], by simp [count], ?_⟩
    simp [inorderKeys]
  | node l k kit sz r ihl ihr =>
    rcases sizesOk_node_iff.mp hs with ⟨hsz, hsl, hsr⟩
    by_cases hlt : key < k
    · rw [insert_aux, if_pos hlt] at h
      cases hins : insert_aux l key x with
      | ok p =>
        rcases p with ⟨l2, d2⟩
        rw [hins] at h
        simp only [Except.ok.injEq, Prod.mk.injEq] at h
        rcases h with ⟨rfl, rfl⟩
        rcases ihl hsl hins with ⟨hd, hs2, hc2, hp2⟩
        refine ⟨hd, ?_, ?_, ?_⟩
        · refine sizesOk_node_iff.mpr ⟨?_, hs2, hsr⟩
          rw [hc2]
          push_cast
          omega
        · simp [count, hc2]
          omega
        · show List.Perm (inorderKeys l2 ++ k :: inorderKeys r) _
          exact hp2.append_right (k :: inorderKeys r)
      | error e =>
        rw [hins] at h
        exact absurd h (by simp)
    · by_cases hgt : key > k
      · rw [insert_aux, if_neg hlt, if_pos hgt] at h
        cases hins : insert_aux r key x with
        | ok p =>
          rcases p with ⟨r2, d2⟩
          rw [hins] at h
          simp only [Except.ok.injEq, Prod.mk.injEq] at h
          rcases h with ⟨rfl, rfl⟩
          rcases ihr hsr hins with ⟨hd, hs2, hc2, hp2⟩
          refine ⟨hd, ?_, ?_, ?_⟩
          · refine sizesOk_node_iff.mpr ⟨?_, hsl, hs2⟩
            rw [hc2]
            push_cast
            omega
          · simp [count, hc2]
            omega
          · show List.Perm (inorderKeys l ++ k :: inorderKeys r2) _
            have step1 : List.Perm (inorderKeys l ++ k :: inorderKeys r2)
                (inorderKeys l ++ key :: k :: inorderKeys r) := by
              refine List.Perm.append_left _ ?_
              exact (hp2.cons k).trans (List.Perm.swap key k _)
            exact step1.trans List.perm_middle
        | error e =>
          rw [hins] at h
          exact absurd h (by simp)
      · have hk : key = k := by omega
        rw [insert_aux, if_neg hlt, if_neg hgt] at h
        exact absurd h (by simp)

theorem delete_aux_ok {t : TreeNode α} {key : Int} {t2 : TreeNode α} {d : Int}
    (hs : sizesOk t = true) (h : delete_aux t key = .ok (t2, d)) :
    d = 1 ∧ sizesOk t2 = true ∧ count t2 + 1 = count t := by
  induction t generalizing key t2 d with
  | nil =>
    rw [delete_aux_nil] at h
    exact absurd h (by simp)
  | node l k kit sz r ihl ihr =>
    rcases sizesOk_node_iff.mp hs with ⟨hsz, hsl, hsr⟩
    by_cases hlt : key < k
    · rw [delete_aux_node, if_pos hlt] at h
      cases hdel : delete_aux l key with
      | ok p =>
        rcases p with ⟨l2, d2⟩
        rw [hdel] at h
        simp only [Except.ok.injEq, Prod.mk.injEq] at h
        rcases h with ⟨rfl, rfl⟩
        rcases ihl hsl hdel with ⟨hd, hs2, hc2⟩
        refine ⟨hd, ?_, ?_⟩
        · refine sizesOk_node_iff.mpr ⟨?_, hs2, hsr⟩
          omega
        · simp [count]
          omega
      | error e =>
        rw [hdel] at h
        exact absurd h (by simp)
    · by_cases hgt : key > k
      · rw [delete_aux_node, if_neg hlt, if_pos hgt] at h
        cases hdel : delete_aux r key with
        | ok p =>
          rcases p with ⟨r2, d2⟩
          rw [hdel] at h
          simp only [Except.ok.injEq, Prod.mk.injEq] at h
          rcases h with ⟨rfl, rfl⟩
          rcases ihr hsr hdel with ⟨hd, hs2, hc2⟩
          refine ⟨hd, ?_, ?_⟩
          · refine sizesOk_node_iff.mpr ⟨?_, hsl, hs2⟩
            omega
          · simp [count]
            omega
        | error e =>
          rw [hdel] at h
          exact absurd h (by simp)
      · rw [delete_aux_node, if_neg hlt, if_neg hgt] at h
        by_cases hleaf : (isNil l && isNil r) = true
        · rw [if_pos hleaf] at h
          simp only [Except.ok.injEq, Prod.mk.injEq] at h
          rcases h with ⟨rfl, rfl⟩
          simp only [Bool.and_eq_true] at hleaf
          obtain rfl := isNil_iff.mp hleaf.1
          obtain rfl := isNil_iff.mp hleaf.2
          refine ⟨rfl, by simp [sizesOk], by simp [count]⟩
        · rw [if_neg hleaf] at h
          by_cases hl : isNil l = true
          · rw [if_pos hl] at h
            simp only [Except.ok.injEq, Prod.mk.injEq] at h
            rcases h with ⟨rfl, rfl⟩
            obtain rfl := isNil_iff.mp hl
            refine ⟨rfl, hsr, ?_⟩
            simp [count]
            omega
          · rw [if_neg hl] at h
            by_cases hr : isNil r = true
            · rw [if_pos hr] at h
              simp only [Except.ok.injEq, Prod.mk.injEq] at h
              rcases h with ⟨rfl, rfl⟩
              obtain rfl := isNil_iff.mp hr
              refine ⟨rfl, hsl, ?_⟩
              simp [count]
              omega
            · rw [if_neg hr] at h
              split at h
              · exact absurd h (by simp)
              · split at h
                · rename_i ml mk mit msz mr hmin r2 d2 hdel
                  simp only [Except.ok.injEq, Prod.mk.injEq] at h
                  rcases h with ⟨rfl, rfl⟩
                  rcases ihr hsr hdel with ⟨hd, hs2, hc2⟩
                  refine ⟨hd, ?_, ?_⟩
                  · refine sizesOk_node_iff.mpr ⟨?_, hsl, hs2⟩
                    omega
                  · simp [count] at hc2 ⊢
                    omega
                · exact absurd h (by simp)

theorem insert_aux_mem_error {t : TreeNode α} {key : Int} (x : α)
    (hb : bstOk t = true) (hm : key ∈ inorderKeys t) :
    insert_aux t key x = .error dupItemMsg := by
  induction t with
  | nil => simp [inorderKeys] at hm
  | node l k kit sz r ihl ihr =>
    rcases bstOk_node_iff.mp hb with ⟨hal, har, hbl, hbr⟩
    rcases List.mem_append.mp hm with hml | hmr
    · have hlt : key < k := by
        have := allKeys_iff.mp hal key hml
        simpa using this
      rw [insert_aux, if_pos hlt, ihl hbl hml]
    · rcases List.mem_cons.mp hmr with rfl | hmr2
      · rw [insert_aux, if_neg (lt_irrefl key), if_neg (lt_irrefl key)]
      · have hgt : key > k := by
          have := allKeys_iff.mp har key hmr2
          simpa using this
        rw [insert_aux, if_neg (by omega : ¬key < k), if_pos hgt, ihr hbr hmr2]

theorem allKeys_insert {p : Int → Bool} {t : TreeNode α} {key : Int} {x : α}
    {t2 : TreeNode α} {d : Int} (hp : p key = true) (ha : allKeys p t = true)
    (h : insert_aux t key x = .ok (t2, d)) : allKeys p t2 = true := by
  induction t generalizing t2 d with
  | nil =>
    simp only [insert_aux, Except.ok.injEq, Prod.mk.injEq] at h
    rcases h with ⟨rfl, rfl⟩
    simp [allKeys, hp]
  | node l k kit sz r ihl ihr =>
    simp only [allKeys, Bool.and_eq_true] at ha
    rcases ha with ⟨⟨hak, hal⟩, har⟩
    by_cases hlt : key < k
    · rw [insert_aux, if_pos hlt] at h
      cases hins : insert_aux l key x with
      | ok pr =>
        rcases pr with ⟨l2, d2⟩
        rw [hins] at h
        simp only [Except.ok.injEq, Prod.mk.injEq] at h
        rcases h with ⟨rfl, rfl⟩
        simp [allKeys, hak, har, ihl hal hins]
      | error e =>
        rw [hins] at h
        exact absurd h (by simp)
    · by_cases hgt : key > k
      · rw [insert_aux, if_neg hlt, if_pos hgt] at h
        cases hins : insert_aux r key x with
        | ok pr =>
          rcases pr with ⟨r2, d2⟩
          rw [hins] at h
          simp only [Except.ok.injEq, Prod.mk.injEq] at h
          rcases h with ⟨rfl, rfl⟩
          simp [allKeys, hak, hal, ihr har hins]
        | error e =>
          rw [hins] at h
          exact absurd h (by simp)
      · rw [insert_aux, if_neg hlt, if_neg hgt] at h
        exact absurd h (by simp)

theorem insert_aux_not_mem_ok {t : TreeNode α} {key : Int} (x : α)
    (hb : bstOk t = true) (hm : key ∉ inorderKeys t) :
    ∃ t2, insert_aux t key x = .ok (t2, 1) ∧ bstOk t2 = true := by
  induction t with
  | nil =>
    refine ⟨node nil key x 1 nil, by simp [insert_aux], ?_⟩
    simp [bstOk, allKeys]
  | node l k kit sz r ihl ihr =>
    rcases bstOk_node_iff.mp hb with ⟨hal, har, hbl, hbr⟩
    have hmk : key ≠ k := fun hk =>
      hm (List.mem_append.mpr (Or.inr (hk ▸ List.mem_cons_self k _)))
    by_cases hlt : key < k
    · have hml : key ∉ inorderKeys l := fun hc =>
        hm (List.mem_append.mpr (Or.inl hc))
      rcases ihl hbl hml with ⟨l2, hins, hb2⟩
      refine ⟨node l2 k kit (sz + 1) r, ?_, ?_⟩
      · rw [insert_aux, if_pos hlt, hins]
      · refine bstOk_node_iff.mpr ⟨?_, har, hb2, hbr⟩
        exact allKeys_insert (by simpa using hlt) hal hins
    · have hgt : key > k := by omega
      have hmr : key ∉ inorderKeys r := fun hc =>
        hm (List.mem_append.mpr (Or.inr (List.mem_cons_of_mem k hc)))
      rcases ihr hbr hmr with ⟨r2, hins, hb2⟩
      refine ⟨node l k kit (sz + 1) r2, ?_, ?_⟩
      · rw [insert_aux, if_neg hlt, if_pos hgt, hins]
      · refine bstOk_node_iff.mpr ⟨hal, ?_, hbl, hb2⟩
        exact allKeys_insert (by simpa using hgt) har hins

theorem delete_aux_not_mem_error {t : TreeNode α} {key : Int}
    (hb : bstOk t = true) (hm : key ∉ inorderKeys t) :
    delete_aux t key = .error delItemMsg := by
  induction t with
  | nil => rw [delete_aux_nil]
  | node l k kit sz r ihl ihr =>
    rcases bstOk_node_iff.mp hb with ⟨hal, har, hbl, hbr⟩
    have hmk : key ≠ k := fun hk =>
      hm (List.mem_append.mpr (Or.inr (hk ▸ List.mem_cons_self k _)))
    by_cases hlt : key < k
    · have hml : key ∉ inorderKeys l := fun hc =>
        hm (List.mem_append.mpr (Or.inl hc))
      rw [delete_aux_node, if_pos hlt, ihl hbl hml]
    · have hgt : key > k := by omega
      have hmr : key ∉ inorderKeys r := fun hc =>
        hm (List.mem_append.mpr (Or.inr (List.mem_cons_of_mem k hc)))
      rw [delete_aux_node, if_neg hlt, if_pos hgt, ihr hbr hmr]

theorem sorted_inorder {t : TreeNode α} (hb : bstOk t = true) :
    (inorderKeys t).Sorted (fun a b => a < b) := by
  induction t with
  | nil => simp [inorderKeys]
  | node l k kit sz r ihl ihr =>
    rcases bstOk_node_iff.mp hb with ⟨hal, har, hbl, hbr⟩
    rw [inorderKeys, List.Sorted, List.pairwise_append]
    refine ⟨ihl hbl, ?_, ?_⟩
    · rw [List.pairwise_cons]
      refine ⟨?_, ihr hbr⟩
      intro b hb2
      simpa using allKeys_iff.mp har b hb2
    · intro a ha b hb2
      have h1 : a < k := by simpa using allKeys_iff.mp hal a ha
      rcases List.mem_cons.mp hb2 with rfl | hb3
      · exact h1
      · have h2 : k < b := by simpa using allKeys_iff.mp har b hb3
        omega

theorem kth_smallest_none {t : TreeNode α} (hs : sizesOk t = true) {k : Int}
    (hk : k ≤ 0 ∨ (count t : Int) < k) : kth_smallest k t = none := by
  induction t generalizing k with
  | nil => rw [kth_smallest]
  | node l key0 kit sz r ihl ihr =>
    rcases sizesOk_node_iff.mp hs with ⟨hsz, hsl, hsr⟩
    have hls : storedSize l = (count l : Int) := storedSize_eq_count hsl
    have hc : (count (node l key0 kit sz r) : Int) =
        1 + (count l : Int) + (count r : Int) := by
      simp [count]
    rcases hk with hk | hk
    · rw [kth_smallest]
      by_cases h1 : sz < k
      · rw [if_pos h1]
      · rw [if_neg h1, if_neg (by omega : ¬(sz = k ∧ k = 1)),
          if_neg (by omega : ¬storedSize l + 1 = k),
          if_pos (by omega : storedSize l ≥ k)]
        exact ihl hsl (Or.inl hk)
    · rw [hc] at hk
      rw [kth_smallest, if_pos (by omega : sz < k)]

theorem kth_smallest_rank_aux {t : TreeNode α} (hs : sizesOk t = true) {k : Int}
    (h1 : 1 ≤ k) (h2 : k ≤ (count t : Int)) :
    Option.map keyOf (kth_smallest k t) = (inorderKeys t)[(k - 1).toNat]? := by
  induction t generalizing k with
  | nil =>
    simp [count] at h2
    omega
  | node l key0 kit sz r ihl ihr =>
    rcases sizesOk_node_iff.mp hs with ⟨hsz, hsl, hsr⟩
    have hls : storedSize l = (count l : Int) := storedSize_eq_count hsl
    have hc : (count (node l key0 kit sz r) : Int) =
        1 + (count l : Int) + (count r : Int) := by
      simp [count]
    rw [hc] at h2
    have hlen : (inorderKeys l).length = count l := length_inorderKeys l
    rw [kth_smallest, if_neg (by omega : ¬sz < k)]
    by_cases hone : sz = k ∧ k = 1
    · rw [if_pos hone]
      have hl0 : count l = 0 := by omega
      have hr0 : count r = 0 := by omega
      obtain rfl := count_eq_zero_iff.mp hl0
      obtain rfl := count_eq_zero_iff.mp hr0
      have hidx : (k - 1).toNat = 0 := by omega
      simp [inorderKeys, keyOf, hidx]
    · rw [if_neg hone]
      by_cases heq : storedSize l + 1 = k
      · rw [if_pos heq]
        rw [inorderKeys,
          List.getElem?_append_right (by omega : (inorderKeys l).length ≤ (k - 1).toNat)]
        have hidx : (k - 1).toNat - (inorderKeys l).length = 0 := by omega
        rw [hidx, List.getElem?_cons_zero]
        simp [keyOf]
      · rw [if_neg heq]
        by_cases hge : storedSize l ≥ k
        · rw [if_pos hge]
          rw [ihl hsl h1 (by omega), inorderKeys,
            List.getElem?_append_left (by omega : (k - 1).toNat < (inorderKeys l).length)]
        · rw [if_neg hge]
          rw [ihr hsr (by omega : 1 ≤ k - storedSize l - 1) (by omega), inorderKeys,
            List.getElem?_append_right (by omega : (inorderKeys l).length ≤ (k - 1).toNat)]
          have hidx : (k - 1).toNat - (inorderKeys l).length =
              (k - storedSize l - 1 - 1).toNat + 1 := by omega
          rw [hidx, List.getElem?_cons_succ]

end TreeNode

/-! # Helper lemmas: rank-band selection -/

theorem seg_nil_of_lt (xs : List Int) {f r : Int} (h : r < f) : seg xs f r = [] := by
  induction xs generalizing f r with
  | nil => rw [seg]
  | cons x xs ih =>
    rw [seg, if_neg (by omega : ¬(f ≤ 1 ∧ 1 ≤ r)), ih (by omega)]
    simp

theorem seg_append (l1 l2 : List Int) (f r : Int) :
    seg (l1 ++ l2) f r =
      seg l1 f r ++ seg l2 (f - l1.length) (r - l1.length) := by
  induction l1 generalizing f r with
  | nil => simp [seg]
  | cons x xs ih =>
    rw [List.cons_append, seg, ih]
    conv_rhs => rw [seg]
    rw [List.append_assoc, List.length_cons]
    have harg1 : f - 1 - (xs.length : Int) = f - ((xs.length + 1 : Nat) : Int) := by
      push_cast
      ring
    have harg2 : r - 1 - (xs.length : Int) = r - ((xs.length + 1 : Nat) : Int) := by
      push_cast
      ring
    rw [harg1, harg2]

theorem seg_sublist (xs : List Int) (f r : Int) : (seg xs f r).Sublist xs := by
  induction xs generalizing f r with
  | nil => simp [seg]
  | cons x xs ih =>
    rw [seg]
    by_cases h : f ≤ 1 ∧ 1 ≤ r
    · rw [if_pos h]
      simpa using (ih (f - 1) (r - 1)).cons_cons x
    · rw [if_neg h]
      simpa using (ih (f - 1) (r - 1)).cons x

theorem seg_mem_iff {xs : List Int} {f r v : Int} :
    v ∈ seg xs f r ↔
      ∃ i, i < xs.length ∧ xs[i]? = some v ∧
        f ≤ (i : Int) + 1 ∧ (i : Int) + 1 ≤ r := by
  induction xs generalizing f r with
  | nil => simp [seg]
  | cons x xs ih =>
    rw [seg]
    by_cases h : f ≤ 1 ∧ 1 ≤ r
    · rw [if_pos h]
      simp only [List.singleton_append, List.mem_cons, ih]
      constructor
      · rintro (rfl | ⟨i, hi, hget, hf, hr⟩)
        · exact ⟨0, by simp, by simp, by omega, by omega⟩
        · exact ⟨i + 1, by simpa using hi, by simpa using hget, by push_cast; omega,
            by push_cast; omega⟩
      · rintro ⟨i, hi, hget, hf, hr⟩
        cases i with
        | zero =>
          left
          simpa using hget.symm
        | succ j =>
          right
          exact ⟨j, by simpa using hi, by simpa using hget, by push_cast at hf ⊢; omega,
            by push_cast at hr ⊢; omega⟩
    · rw [if_neg h]
      simp only [List.nil_append, ih]
      constructor
      · rintro ⟨i, hi, hget, hf, hr⟩
        exact ⟨i + 1, by simpa using hi, by simpa using hget, by push_cast; omega,
          by push_cast; omega⟩
      · rintro ⟨i, hi, hget, hf, hr⟩
        cases i with
        | zero =>
          exact absurd ⟨by omega, by omega⟩ h
        | succ j =>
          exact ⟨j, by simpa using hi, by simpa using hget, by push_cast at hf ⊢; omega,
            by push_cast at hr ⊢; omega⟩

theorem ratio_aux_perm {α : Type} (t : TreeNode α) (hs : TreeNode.sizesOk t = true)
    (f r : Int) :
    List.Perm (TreeNode.ratio_aux t f r) (seg (TreeNode.inorderKeys t) f r) := by
  induction t generalizing f r with
  | nil => simp [TreeNode.ratio_aux, TreeNode.inorderKeys, seg]
  | node l k kit sz rt ihl ihr =>
    rcases TreeNode.sizesOk_node_iff.mp hs with ⟨hsz, hsl, hsr⟩
    have hls := TreeNode.storedSize_eq_count hsl
    rw [TreeNode.ratio_aux, TreeNode.inorderKeys, seg_append, seg,
      TreeNode.length_inorderKeys, hls]
    have hcond : (if f - (TreeNode.count l : Int) ≤ 1 ∧ 1 ≤ r - (TreeNode.count l : Int)
        then [k] else ([] : List Int)) =
        (if f ≤ (TreeNode.count l : Int) + 1 ∧ (TreeNode.count l : Int) + 1 ≤ r
        then [k] else []) := by
      split_ifs with h1 h2 h3 <;> first | rfl | omega
    rw [hcond, List.append_assoc]
    have hp : List.Perm (TreeNode.ratio_aux l f r ++
        TreeNode.ratio_aux rt (f - (TreeNode.count l : Int) - 1)
          (r - (TreeNode.count l : Int) - 1))
        (seg (TreeNode.inorderKeys l) f r ++
          seg (TreeNode.inorderKeys rt) (f - (TreeNode.count l : Int) - 1)
            (r - (TreeNode.count l : Int) - 1)) :=
      (ihl hsl f r).append (ihr hsr _ _)
    refine List.Perm.trans (List.Perm.append_left _ hp) ?_
    rw [← List.append_assoc, ← List.append_assoc]
    exact List.perm_append_comm.append_right _


/-! # Helper lemmas: object-level invariants -/

theorem setitemE_inv {α : Type} {b b2 : OSTree α} {k : Int} {x : α}
    (h1 : TreeNode.sizesOk b.root = true)
    (h2 : b.length = (TreeNode.count b.root : Int))
    (h : b.setitemE k x = .ok b2) :
    TreeNode.sizesOk b2.root = true ∧
      b2.length = (TreeNode.count b2.root : Int) := by
  rw [OSTree.setitemE] at h
  cases hins : TreeNode.insert_aux b.root k x with
  | ok pr =>
    rcases pr with ⟨r2, d2⟩
    rw [hins] at h
    simp only [Except.ok.injEq] at h
    subst h
    rcases TreeNode.insert_aux_ok h1 hins with ⟨hd, hs2, hc2, -⟩
    subst hd
    refine ⟨hs2, ?_⟩
    simp [hc2, h2]
  | error e =>
    rw [hins] at h
    exact absurd h (by simp)

theorem delitemE_inv {α : Type} {b b2 : OSTree α} {k : Int}
    (h1 : TreeNode.sizesOk b.root = true)
    (h2 : b.length = (TreeNode.count b.root : Int))
    (h : b.delitemE k = .ok b2) :
    TreeNode.sizesOk b2.root = true ∧
      b2.length = (TreeNode.count b2.root : Int) := by
  rw [OSTree.delitemE] at h
  cases hdel : TreeNode.delete_aux b.root k with
  | ok pr =>
    rcases pr with ⟨r2, d2⟩
    rw [hdel] at h
    simp only [Except.ok.injEq] at h
    subst h
    rcases TreeNode.delete_aux_ok h1 hdel with ⟨hd, hs2, hc2⟩
    subst hd
    refine ⟨hs2, ?_⟩
    simp [h2]
    omega
  | error e =>
    rw [hdel] at h
    exact absurd h (by simp)

theorem applyBstOp_inv {α : Type} {b : OSTree α}
    (h1 : TreeNode.sizesOk b.root = true)
    (h2 : b.length = (TreeNode.count b.root : Int)) (op : BstOp α) :
    TreeNode.sizesOk (applyBstOp b op).root = true ∧
      (applyBstOp b op).length = (TreeNode.count (applyBstOp b op).root : Int) := by
  cases op with
  | ins k x =>
    cases hset : b.setitemE k x with
    | ok b2 =>
      have hres : applyBstOp b (BstOp.ins k x) = b2 := by
        simp [applyBstOp, hset]
      rw [hres]
      exact setitemE_inv h1 h2 hset
    | error e =>
      have hres : applyBstOp b (BstOp.ins k x) = b := by
        simp [applyBstOp, hset]
      rw [hres]
      exact ⟨h1, h2⟩
  | del k =>
    cases hdel : b.delitemE k with
    | ok b2 =>
      have hres : applyBstOp b (BstOp.del k) = b2 := by
        simp [applyBstOp, hdel]
      rw [hres]
      exact delitemE_inv h1 h2 hdel
    | error e =>
      have hres : applyBstOp b (BstOp.del k) = b := by
        simp [applyBstOp, hdel]
      rw [hres]
      exact ⟨h1, h2⟩

theorem foldl_applyBstOp_inv {α : Type} (ops : List (BstOp α)) :
    ∀ b : OSTree α, TreeNode.sizesOk b.root = true →
      b.length = (TreeNode.count b.root : Int) →
      TreeNode.sizesOk (ops.foldl applyBstOp b).root = true ∧
        (ops.foldl applyBstOp b).length =
          (TreeNode.count (ops.foldl applyBstOp b).root : Int) := by
  induction ops with
  | nil =>
    intro b hb1 hb2
    simpa using ⟨hb1, hb2⟩
  | cons op ops ih =>
    intro b hb1 hb2
    rw [List.foldl_cons]
    rcases applyBstOp_inv hb1 hb2 op with ⟨h1, h2⟩
    exact ih _ h1 h2

theorem runBstOps_inv {α : Type} (ops : List (BstOp α)) :
    TreeNode.sizesOk (runBstOps ops).root = true ∧
      (runBstOps ops).length = (TreeNode.count (runBstOps ops).root : Int) := by
  exact foldl_applyBstOp_inv ops OSTree.empty
    (by simp [OSTree.empty, TreeNode.sizesOk])
    (by simp [OSTree.empty, TreeNode.count])

/-! # Helper lemmas: spatial index -/

namespace BeeTree

variable {α : Type}

theorem insert_countB (t : BeeTree α) (p : Pt) (x : α) :
    countB (insert_aux t p x) = countB t + 1 := by
  induction t with
  | nil => simp [insert_aux, countB]
  | node k it sz c0 c1 c2 c3 c4 c5 c6 c7 ih0 ih1 ih2 ih3 ih4 ih5 ih6 ih7 =>
    rw [insert_aux]
    split <;>
      simp [countB, ih0, ih1, ih2, ih3, ih4, ih5, ih6, ih7] <;> omega

theorem insert_countKey (t : BeeTree α) (p q : Pt) (x : α) :
    countKey q (insert_aux t p x) =
      countKey q t + (if q = p then 1 else 0) := by
  induction t with
  | nil =>
    simp only [insert_aux, countKey]
    split_ifs with h1 h2 h3 <;> simp_all [countKey] <;> omega
  | node k it sz c0 c1 c2 c3 c4 c5 c6 c7 ih0 ih1 ih2 ih3 ih4 ih5 ih6 ih7 =>
    rw [insert_aux]
    split <;>
      simp [countKey, ih0, ih1, ih2, ih3, ih4, ih5, ih6, ih7] <;> omega

theorem insert_sizesOkB {t : BeeTree α} (hs : sizesOkB t = true) (p : Pt) (x : α) :
    sizesOkB (insert_aux t p x) = true := by
  induction t with
  | nil => simp [insert_aux, sizesOkB, countB]
  | node k it sz c0 c1 c2 c3 c4 c5 c6 c7 ih0 ih1 ih2 ih3 ih4 ih5 ih6 ih7 =>
    simp only [sizesOkB, Bool.and_eq_true, beq_iff_eq] at hs
    obtain ⟨⟨⟨⟨⟨⟨⟨⟨hsz, h0⟩, h1⟩, h2⟩, h3⟩, h4⟩, h5⟩, h6⟩, h7⟩ := hs
    rw [insert_aux]
    split <;>
      · simp only [sizesOkB, Bool.and_eq_true, beq_iff_eq, insert_countB]
        refine ⟨⟨⟨⟨⟨⟨⟨⟨?_, ?_⟩, ?_⟩, ?_⟩, ?_⟩, ?_⟩, ?_⟩, ?_⟩, ?_⟩ <;>
          first
            | (push_cast; omega)
            | assumption
            | exact ih0 h0
            | exact ih1 h1
            | exact ih2 h2
            | exact ih3 h3
            | exact ih4 h4
            | exact ih5 h5
            | exact ih6 h6
            | exact ih7 h7

end BeeTree

theorem runInserts_inv {α : Type} (ps : List (Pt × α)) :
    BeeTree.sizesOkB (TDBT.runInserts ps).root = true ∧
      (TDBT.runInserts ps).length =
        (BeeTree.countB (TDBT.runInserts ps).root : Int) := by
  suffices h : ∀ t : TDBT α, BeeTree.sizesOkB t.root = true →
      t.length = (BeeTree.countB t.root : Int) →
      BeeTree.sizesOkB (ps.foldl (fun t pi => t.setitem pi.1 pi.2) t).root = true ∧
        (ps.foldl (fun t pi => t.setitem pi.1 pi.2) t).length =
          (BeeTree.countB (ps.foldl (fun t pi => t.setitem pi.1 pi.2) t).root : Int) by
    exact h TDBT.empty (by simp [TDBT.empty, BeeTree.sizesOkB])
      (by simp [TDBT.empty, BeeTree.countB])
  induction ps with
  | nil =>
    intro t h1 h2
    simpa using ⟨h1, h2⟩
  | cons q ps ih =>
    intro t h1 h2
    rw [List.foldl_cons]
    refine ih _ (BeeTree.insert_sizesOkB h1 q.1 q.2) ?_
    simp [TDBT.setitem, BeeTree.insert_countB, h2]

/-! # Helper lemmas: percentile container construction -/

theorem add_all_ok {p : Percentiles} {l : List Int}
    (hb : TreeNode.bstOk p.points.root = true)
    (hs : TreeNode.sizesOk p.points.root = true)
    (hlen : p.points.length = (TreeNode.count p.points.root : Int))
    (hnd : l.Nodup)
    (hdisj : ∀ v ∈ l, v ∉ TreeNode.inorderKeys p.points.root) :
    ∃ q, Percentiles.add_all p l = .ok q ∧
      TreeNode.bstOk q.points.root = true ∧
      TreeNode.sizesOk q.points.root = true ∧
      q.points.length = (TreeNode.count q.points.root : Int) ∧
      List.Perm (TreeNode.inorderKeys q.points.root)
        (TreeNode.inorderKeys p.points.root ++ l) := by
  induction l generalizing p with
  | nil =>
    refine ⟨p, ?_, hb, hs, hlen, by simp⟩
    rw [Percentiles.add_all]
  | cons v vs ih =>
    have hvm : v ∉ TreeNode.inorderKeys p.points.root :=
      hdisj v (List.mem_cons_self v vs)
    rcases TreeNode.insert_aux_not_mem_ok () hb hvm with ⟨t2, hins, hb2⟩
    rcases TreeNode.insert_aux_ok hs hins with ⟨-, hs2, hc2, hp2⟩
    have hstep : Percentiles.add_all p (v :: vs) =
        Percentiles.add_all ⟨⟨t2, p.points.length + 1⟩⟩ vs := by
      rw [Percentiles.add_all, Percentiles.add_point, OSTree.setitemE, hins]
    rw [hstep]
    have hnd2 : vs.Nodup := (List.nodup_cons.mp hnd).2
    have hvnotvs : v ∉ vs := (List.nodup_cons.mp hnd).1
    have hdisj2 : ∀ w ∈ vs, w ∉ TreeNode.inorderKeys t2 := by
      intro w hw hwmem
      rcases List.mem_cons.mp (hp2.mem_iff.mp hwmem) with h | h
      · exact hvnotvs (h ▸ hw)
      · exact hdisj w (List.mem_cons_of_mem v hw) h
    have hlen2 : (Percentiles.mk ⟨t2, p.points.length + 1⟩).points.length =
        (TreeNode.count t2 : Int) := by
      show p.points.length + 1 = (TreeNode.count t2 : Int)
      rw [hc2]
      push_cast
      omega
    rcases ih hb2 hs2 hlen2 hnd2 hdisj2 with
      ⟨q, hq, hqb, hqs, hql, hqp⟩
    refine ⟨q, hq, hqb, hqs, hql, ?_⟩
    refine hqp.trans ?_
    refine (hp2.append_right vs).trans ?_
    exact List.perm_middle.symm

/-! # Helper lemmas: balancer -/

theorem count_filter_if {β : Type} [DecidableEq β] (l : List β) (p : β → Bool)
    (a : β) : (l.filter p).count a = if p a then l.count a else 0 := by
  induction l with
  | nil => simp
  | cons x xs ih =>
    rw [List.filter_cons]
    by_cases hx : p x
    · rw [if_pos hx]
      by_cases hax : a = x
      · subst hax
        simp [List.count_cons_self, ih, hx]
      · simp [List.count_cons_of_ne hax, ih]
    · rw [if_neg hx]
      by_cases hax : a = x
      · subst hax
        simp [ih, hx]
      · simp [List.count_cons_of_ne hax, ih]

theorem cons_filter_ne_perm {β : Type} [DecidableEq β] {l : List β} {a : β}
    (hnd : l.Nodup) (ha : a ∈ l) :
    List.Perm (a :: l.filter (fun q => decide (q ≠ a))) l := by
  refine List.perm_iff_count.mpr fun b => ?_
  rw [List.count_cons, count_filter_if]
  by_cases hba : b = a
  · subst hba
    simp [List.count_eq_one_of_mem hnd ha]
  · have hab : ¬a = b := fun hc => hba hc.symm
    simp [hba, hab]

theorem get_child_index_lt_8 (s p : Pt) : get_child_index s p < 8 := by
  rw [get_child_index]
  split_ifs <;> omega

theorem octant_concat_perm (root : Pt) (rest : List Pt) :
    List.Perm (octant root rest 0 ++ octant root rest 1 ++ octant root rest 2 ++
      octant root rest 3 ++ octant root rest 4 ++ octant root rest 5 ++
      octant root rest 6 ++ octant root rest 7) rest := by
  refine List.perm_iff_count.mpr fun b => ?_
  have h8 := get_child_index_lt_8 root b
  simp only [List.count_append, octant, count_filter_if, decide_eq_true_eq]
  set n := get_child_index root b with hn
  interval_cases n <;> simp

theorem octant_nodup (root : Pt) {rest : List Pt} (hnd : rest.Nodup) (i : Nat) :
    (octant root rest i).Nodup := hnd.filter _

theorem make_ordering_aux_perm :
    ∀ (fuel : Nat) (pts out : List Pt), pts.Nodup →
      make_ordering_aux fuel pts = .ok out → List.Perm out pts := by
  intro fuel
  induction fuel with
  | zero =>
    intro pts out hnd h
    rw [make_ordering_aux] at h
    by_cases hlen : pts.length < 18
    · rw [if_pos hlen] at h
      simp only [Except.ok.injEq] at h
      subst h
      exact List.Perm.refl _
    · rw [if_neg hlen] at h
      exact absurd h (by simp)
  | succ fuel ih =>
    intro pts out hnd h
    rw [make_ordering_aux] at h
    by_cases hlen : pts.length < 18
    · rw [if_pos hlen] at h
      simp only [Except.ok.injEq] at h
      subst h
      exact List.Perm.refl _
    · rw [if_neg hlen] at h
      cases hbp : build_percentiles Percentiles.empty Percentiles.empty
          Percentiles.empty pts with
      | error e =>
        rw [hbp] at h
        exact absurd h (by simp)
      | ok triple =>
        rcases triple with ⟨px, py, pz⟩
        rw [hbp] at h
        simp only [bind, Except.bind] at h
        split at h
        · simp only [Except.ok.injEq] at h
          subst h
          exact List.Perm.refl _
        · rename_i root hfind
          have hroot : root ∈ pts := List.mem_of_find?_eq_some hfind
          have hrest : (pts.filter (fun q => decide (q ≠ root))).Nodup :=
            hnd.filter _
          split at h
          · exact absurd h (by simp)
          · rename_i r0 h0
            split at h
            · exact absurd h (by simp)
            · rename_i r1 h1
              split at h
              · exact absurd h (by simp)
              · rename_i r2 h2
                split at h
                · exact absurd h (by simp)
                · rename_i r3 h3
                  split at h
                  · exact absurd h (by simp)
                  · rename_i r4 h4
                    split at h
                    · exact absurd h (by simp)
                    · rename_i r5 h5
                      split at h
                      · exact absurd h (by simp)
                      · rename_i r6 h6
                        split at h
                        · exact absurd h (by simp)
                        · rename_i r7 h7
                          simp only [pure, Except.pure, Except.ok.injEq] at h
                          subst h
                          have p0 := ih _ _ (octant_nodup root hrest 0) h0
                          have p1 := ih _ _ (octant_nodup root hrest 1) h1
                          have p2 := ih _ _ (octant_nodup root hrest 2) h2
                          have p3 := ih _ _ (octant_nodup root hrest 3) h3
                          have p4 := ih _ _ (octant_nodup root hrest 4) h4
                          have p5 := ih _ _ (octant_nodup root hrest 5) h5
                          have p6 := ih _ _ (octant_nodup root hrest 6) h6
                          have p7 := ih _ _ (octant_nodup root hrest 7) h7
                          refine List.Perm.trans (List.Perm.cons root ?_)
                            (cons_filter_ne_perm hnd hroot)
                          refine List.Perm.trans ?_
                            (octant_concat_perm root
                              (pts.filter (fun q => decide (q ≠ root))))
                          exact ((((((p0.append p1).append p2).append p3).append
                            p4).append p5).append p6).append p7

theorem storedSizeB_eq_countB {α : Type} {t : BeeTree α}
    (h : BeeTree.sizesOkB t = true) :
    BeeTree.storedSizeB t = (BeeTree.countB t : Int) := by
  cases t with
  | nil => simp [BeeTree.storedSizeB, BeeTree.countB]
  | node k it sz c0 c1 c2 c3 c4 c5 c6 c7 =>
    simp only [BeeTree.sizesOkB, Bool.and_eq_true, beq_iff_eq] at h
    simp [BeeTree.storedSizeB, BeeTree.countB, h.1.1.1.1.1.1.1.1]

/-! # Claim theorems -/

/-- C1: the spec requires `ThreeDeeBeeTree` insertion of an already-present
point to raise `DuplicateKey`, but the code has no duplicate check at all:
re-inserting `(1,1,1)` into an index already holding `(1,1,1)` raises
nothing — it silently stores a second node with the same key (the length
counter reaches 2 and two nodes hold the point). -/
theorem tdbt_duplicate_insert_not_rejected :
    (TDBT.runInserts [(((1:Int),(1:Int),(1:Int)), (0:Int)), (((1:Int),(1:Int),(1:Int)), 1)]).length = 2 ∧
      BeeTree.countKey ((1:Int),(1:Int),(1:Int))
        (TDBT.runInserts [(((1:Int),(1:Int),(1:Int)), (0:Int)), (((1:Int),(1:Int),(1:Int)), 1)]).root = 2 := by
  decide

/-- C2 counterexample: inserting a point strictly equal to the stored root
of a concrete one-node index terminates with a defined result (a two-node
tree), computed here by evaluation of the structurally recursive
`insert_aux`, so the claimed non-termination does not occur at this
input. -/
theorem tdbt_duplicate_insert_terminates :
    BeeTree.insert_aux
        (BeeTree.node ((1:Int),(1:Int),(1:Int)) (0:Int) 1
          BeeTree.nil BeeTree.nil BeeTree.nil BeeTree.nil
          BeeTree.nil BeeTree.nil BeeTree.nil BeeTree.nil)
        ((1:Int),(1:Int),(1:Int)) 1 =
      BeeTree.node ((1:Int),(1:Int),(1:Int)) (0:Int) 2
        BeeTree.nil BeeTree.nil BeeTree.nil BeeTree.nil
        BeeTree.nil BeeTree.nil BeeTree.nil
        (BeeTree.node ((1:Int),(1:Int),(1:Int)) 1 1
          BeeTree.nil BeeTree.nil BeeTree.nil BeeTree.nil
          BeeTree.nil BeeTree.nil BeeTree.nil BeeTree.nil) := by
  decide

/-- C2 (amended): inserting a point already present in the Spatial Index
terminates — the insertion descends into octant 7 past every equal key and
reaches an empty slot — and silently adds a second node holding the same
point: the node count grows by one, the number of nodes holding the point
grows by one, and afterwards at least two nodes hold it. -/
theorem tdbt_duplicate_insert_adds_node {α : Type} (t : BeeTree α) (p : Pt)
    (x : α) (hm : BeeTree.memB p t = true) :
    BeeTree.countB (BeeTree.insert_aux t p x) = BeeTree.countB t + 1 ∧
      BeeTree.countKey p (BeeTree.insert_aux t p x) =
        BeeTree.countKey p t + 1 ∧
      2 ≤ BeeTree.countKey p (BeeTree.insert_aux t p x) := by
  have h1 := BeeTree.insert_countB t p x
  have h2 := BeeTree.insert_countKey t p p x
  rw [BeeTree.memB, bne_iff_ne] at hm
  simp at h2
  exact ⟨h1, h2, by omega⟩

/-- C2 witness: the one-node index holding `(1,1,1)` contains the point,
and re-inserting it adds a second node with that key. -/
theorem tdbt_duplicate_insert_adds_node_witness :
    BeeTree.memB ((1:Int),(1:Int),(1:Int))
        (BeeTree.node ((1:Int),(1:Int),(1:Int)) (0:Int) 1
          BeeTree.nil BeeTree.nil BeeTree.nil BeeTree.nil
          BeeTree.nil BeeTree.nil BeeTree.nil BeeTree.nil) = true ∧
      (BeeTree.countB (BeeTree.insert_aux
          (BeeTree.node ((1:Int),(1:Int),(1:Int)) (0:Int) 1
            BeeTree.nil BeeTree.nil BeeTree.nil BeeTree.nil
            BeeTree.nil BeeTree.nil BeeTree.nil BeeTree.nil)
          ((1:Int),(1:Int),(1:Int)) 1) =
        BeeTree.countB (BeeTree.node ((1:Int),(1:Int),(1:Int)) (0:Int) 1
            BeeTree.nil BeeTree.nil BeeTree.nil BeeTree.nil
            BeeTree.nil BeeTree.nil BeeTree.nil BeeTree.nil) + 1 ∧
      BeeTree.countKey ((1:Int),(1:Int),(1:Int)) (BeeTree.insert_aux
          (BeeTree.node ((1:Int),(1:Int),(1:Int)) (0:Int) 1
            BeeTree.nil BeeTree.nil BeeTree.nil BeeTree.nil
            BeeTree.nil BeeTree.nil BeeTree.nil BeeTree.nil)
          ((1:Int),(1:Int),(1:Int)) 1) =
        BeeTree.countKey ((1:Int),(1:Int),(1:Int))
          (BeeTree.node ((1:Int),(1:Int),(1:Int)) (0:Int) 1
            BeeTree.nil BeeTree.nil BeeTree.nil BeeTree.nil
            BeeTree.nil BeeTree.nil BeeTree.nil BeeTree.nil) + 1 ∧
      2 ≤ BeeTree.countKey ((1:Int),(1:Int),(1:Int)) (BeeTree.insert_aux
          (BeeTree.node ((1:Int),(1:Int),(1:Int)) (0:Int) 1
            BeeTree.nil BeeTree.nil BeeTree.nil BeeTree.nil
            BeeTree.nil BeeTree.nil BeeTree.nil BeeTree.nil)
          ((1:Int),(1:Int),(1:Int)) 1)) :=
  ⟨by decide, tdbt_duplicate_insert_adds_node _ _ 1 (by decide)⟩

/-- C9: after inserting (3,3,3)→"A", (1,5,2)→"B", (4,3,1)→"C", (5,4,0)→"D"
in that order into an empty Spatial Index, the root's child selected for
key (4,3,1) is exactly the node holding (4,3,1)→"C" with subtree size 2,
whose octant-3 child is the node holding (5,4,0)→"D". -/
theorem tdbt_worked_example :
    BeeTree.get_child_for_key
        (TDBT.runInserts [(((3:Int),(3:Int),(3:Int)), "A"),
          (((1:Int),(5:Int),(2:Int)), "B"), (((4:Int),(3:Int),(1:Int)), "C"),
          (((5:Int),(4:Int),(0:Int)), "D")]).root ((4:Int),(3:Int),(1:Int)) =
      BeeTree.node ((4:Int),(3:Int),(1:Int)) "C" 2
        BeeTree.nil BeeTree.nil BeeTree.nil
        (BeeTree.node ((5:Int),(4:Int),(0:Int)) "D" 1
          BeeTree.nil BeeTree.nil BeeTree.nil BeeTree.nil
          BeeTree.nil BeeTree.nil BeeTree.nil BeeTree.nil)
        BeeTree.nil BeeTree.nil BeeTree.nil BeeTree.nil ∧
      BeeTree.storedSizeB (BeeTree.get_child_for_key
        (TDBT.runInserts [(((3:Int),(3:Int),(3:Int)), "A"),
          (((1:Int),(5:Int),(2:Int)), "B"), (((4:Int),(3:Int),(1:Int)), "C"),
          (((5:Int),(4:Int),(0:Int)), "D")]).root ((4:Int),(3:Int),(1:Int))) = 2 := by
  decide

/-- C4: on any subtree with correct stored sizes, `kth_smallest k current`
returns, for `1 ≤ k ≤` subtree size, a node whose key is the rank-`k`
key of the subtree's in-order key sequence, and returns `none` whenever
`k` is non-positive or exceeds the subtree size. -/
theorem kth_smallest_rank_correct {α : Type} {t : TreeNode α}
    (hs : TreeNode.sizesOk t = true) (k : Int) :
    (1 ≤ k → k ≤ (TreeNode.count t : Int) →
      Option.map TreeNode.keyOf (TreeNode.kth_smallest k t) =
        (TreeNode.inorderKeys t)[(k - 1).toNat]?) ∧
    (k ≤ 0 ∨ (TreeNode.count t : Int) < k →
      TreeNode.kth_smallest k t = none) :=
  ⟨fun h1 h2 => TreeNode.kth_smallest_rank_aux hs h1 h2,
   fun hk => TreeNode.kth_smallest_none hs hk⟩

/-- C4 witness: on the size-3 fixture, rank 2 is the key 20 and rank 4 is
out of range. -/
theorem kth_smallest_rank_correct_witness :
    TreeNode.sizesOk treeW = true ∧
      ((1:Int) ≤ 2 ∧ (2:Int) ≤ (TreeNode.count treeW : Int)) ∧
      Option.map TreeNode.keyOf (TreeNode.kth_smallest 2 treeW) =
        (TreeNode.inorderKeys treeW)[((2:Int) - 1).toNat]? ∧
      ((4:Int) ≤ 0 ∨ (TreeNode.count treeW : Int) < 4) ∧
      TreeNode.kth_smallest 4 treeW = none :=
  ⟨by decide, ⟨by decide, by decide⟩,
   (kth_smallest_rank_correct (by decide) 2).1 (by decide) (by decide),
   Or.inr (by decide),
   (kth_smallest_rank_correct (by decide) 4).2 (Or.inr (by decide))⟩

/-- C6: starting from the empty Order-Statistics Tree, after any sequence
of driver-level insert and delete operations — the failing ones leaving
the object untouched — every node's stored `subtree_size` equals
1 + size(left) + size(right). -/
theorem bst_size_invariant (α : Type) (ops : List (BstOp α)) :
    TreeNode.sizesOk (runBstOps ops).root = true :=
  (runBstOps_inv ops).1

/-- C7: on a `BinarySearchTree` object satisfying the BST ordering
invariant, inserting an already-present key raises exactly the
duplicate-key `ValueError` and deleting an absent key raises exactly the
missing-key `ValueError`, and in both cases the object — root tree with
every key, item and `subtree_size`, plus the `length` counter — is left
completely unchanged. -/
theorem bst_failed_ops_leave_object_unchanged {α : Type} (b : OSTree α)
    (k : Int) (x : α) (hb : TreeNode.bstOk b.root = true) :
    (k ∈ TreeNode.inorderKeys b.root →
      TreeNode.insert_aux b.root k x = .error dupItemMsg ∧
        b.setitemE k x = .error dupItemMsg ∧
        applyBstOp b (BstOp.ins k x) = b) ∧
    (k ∉ TreeNode.inorderKeys b.root →
      TreeNode.delete_aux b.root k = .error delItemMsg ∧
        b.delitemE k = .error delItemMsg ∧
        applyBstOp b (BstOp.del k) = b) := by
  constructor
  · intro hm
    have h1 := TreeNode.insert_aux_mem_error x hb hm
    have h2 : b.setitemE k x = .error dupItemMsg := by
      rw [OSTree.setitemE, h1]
    exact ⟨h1, h2, by simp [applyBstOp, h2]⟩
  · intro hm
    have h1 := TreeNode.delete_aux_not_mem_error hb hm
    have h2 : b.delitemE k = .error delItemMsg := by
      rw [OSTree.delitemE, h1]
    exact ⟨h1, h2, by simp [applyBstOp, h2]⟩

/-- C7 witness: on the 3-key fixture {10, 20, 30}, inserting 20 and
deleting 5 both fail with the object unchanged. -/
theorem bst_failed_ops_leave_object_unchanged_witness :
    TreeNode.bstOk ostreeW.root = true ∧
      (20 : Int) ∈ TreeNode.inorderKeys ostreeW.root ∧
      (TreeNode.insert_aux ostreeW.root 20 (7:Int) = .error dupItemMsg ∧
        ostreeW.setitemE 20 (7:Int) = .error dupItemMsg ∧
        applyBstOp ostreeW (BstOp.ins 20 (7:Int)) = ostreeW) ∧
      (5 : Int) ∉ TreeNode.inorderKeys ostreeW.root ∧
      (TreeNode.delete_aux ostreeW.root 5 = .error delItemMsg ∧
        ostreeW.delitemE 5 = .error delItemMsg ∧
        applyBstOp ostreeW (BstOp.del 5) = ostreeW) :=
  ⟨by decide, by decide,
   (bst_failed_ops_leave_object_unchanged ostreeW 20 (7:Int) (by decide)).1
     (by decide),
   by decide,
   (bst_failed_ops_leave_object_unchanged ostreeW 5 (7:Int) (by decide)).2
     (by decide)⟩

/-- C10: for both structures, after any driver-level operation sequence
from the empty structure, the `length` field equals the number of nodes in
the tree, and for a non-empty tree the root's stored `subtree_size` equals
that same node count. -/
theorem length_equals_node_count :
    (∀ (α : Type) (ops : List (BstOp α)),
      (runBstOps ops).length = (TreeNode.count (runBstOps ops).root : Int) ∧
        (¬(runBstOps ops).root = TreeNode.nil →
          TreeNode.storedSize (runBstOps ops).root =
            (TreeNode.count (runBstOps ops).root : Int))) ∧
    (∀ (α : Type) (ps : List (Pt × α)),
      (TDBT.runInserts ps).length =
          (BeeTree.countB (TDBT.runInserts ps).root : Int) ∧
        (¬(TDBT.runInserts ps).root = BeeTree.nil →
          BeeTree.storedSizeB (TDBT.runInserts ps).root =
            (BeeTree.countB (TDBT.runInserts ps).root : Int))) := by
  constructor
  · intro α ops
    rcases runBstOps_inv ops with ⟨h1, h2⟩
    exact ⟨h2, fun _ => TreeNode.storedSize_eq_count h1⟩
  · intro α ps
    rcases runInserts_inv ps with ⟨h1, h2⟩
    exact ⟨h2, fun _ => storedSizeB_eq_countB h1⟩

/-- C10 witness: the invariant instantiated after one insertion into each
structure, with both roots non-empty. -/
theorem length_equals_node_count_witness :
    ((runBstOps [BstOp.ins 5 (0:Int)]).length =
        (TreeNode.count (runBstOps [BstOp.ins 5 (0:Int)]).root : Int) ∧
      TreeNode.storedSize (runBstOps [BstOp.ins 5 (0:Int)]).root =
        (TreeNode.count (runBstOps [BstOp.ins 5 (0:Int)]).root : Int)) ∧
    ((TDBT.runInserts [(((1:Int),(2:Int),(3:Int)), (0:Int))]).length =
        (BeeTree.countB
          (TDBT.runInserts [(((1:Int),(2:Int),(3:Int)), (0:Int))]).root : Int) ∧
      BeeTree.storedSizeB
          (TDBT.runInserts [(((1:Int),(2:Int),(3:Int)), (0:Int))]).root =
        (BeeTree.countB
          (TDBT.runInserts [(((1:Int),(2:Int),(3:Int)), (0:Int))]).root : Int)) :=
  ⟨⟨(length_equals_node_count.1 Int [BstOp.ins 5 (0:Int)]).1,
    (length_equals_node_count.1 Int [BstOp.ins 5 (0:Int)]).2 (by decide)⟩,
   ⟨(length_equals_node_count.2 Int [(((1:Int),(2:Int),(3:Int)), (0:Int))]).1,
    (length_equals_node_count.2 Int [(((1:Int),(2:Int),(3:Int)), (0:Int))]).2
      (by decide)⟩⟩

/-- C5: on a well-formed `Percentiles` container (correct stored sizes,
distinct keys, synced length counter) with `n` stored elements and
percentages `x, y ∈ [0, 100]` (floats embedded as rationals), the list
returned by `ratio x y` contains each stored key of in-order rank `r` with
`ceil(x/100*n)+1 ≤ r ≤ n - ceil(y/100*n)` exactly once and no other key;
when the lower bound exceeds the upper bound the result is empty. -/
theorem ratio_returns_rank_band (p : Percentiles)
    (hs : TreeNode.sizesOk p.points.root = true)
    (hnd : (TreeNode.inorderKeys p.points.root).Nodup)
    (hlen : p.points.length = (TreeNode.count p.points.root : Int))
    (x y : ℚ) (hx0 : 0 ≤ x) (hx1 : x ≤ 100) (hy0 : 0 ≤ y) (hy1 : y ≤ 100)
    (v : Int) :
    ((p.ratio x y).count v =
      if ∃ i, i < (TreeNode.inorderKeys p.points.root).length ∧
          (TreeNode.inorderKeys p.points.root)[i]? = some v ∧
          Int.ceil (x / 100 * (p.points.length : ℚ)) + 1 ≤ (i : Int) + 1 ∧
          (i : Int) + 1 ≤
            p.points.length - Int.ceil (y / 100 * (p.points.length : ℚ))
      then 1 else 0) ∧
    (p.points.length - Int.ceil (y / 100 * (p.points.length : ℚ)) <
        Int.ceil (x / 100 * (p.points.length : ℚ)) + 1 →
      p.ratio x y = []) := by
  have hratio : p.ratio x y =
      TreeNode.ratio_aux p.points.root
        (Int.ceil (x / 100 * (p.points.length : ℚ)) + 1)
        (p.points.length - Int.ceil (y / 100 * (p.points.length : ℚ))) := rfl
  have hperm := ratio_aux_perm p.points.root hs
    (Int.ceil (x / 100 * (p.points.length : ℚ)) + 1)
    (p.points.length - Int.ceil (y / 100 * (p.points.length : ℚ)))
  constructor
  · rw [hratio, hperm.count_eq]
    by_cases hmem : v ∈ seg (TreeNode.inorderKeys p.points.root)
        (Int.ceil (x / 100 * (p.points.length : ℚ)) + 1)
        (p.points.length - Int.ceil (y / 100 * (p.points.length : ℚ)))
    · rw [List.count_eq_one_of_mem
          (List.Nodup.sublist (seg_sublist _ _ _) hnd) hmem,
        if_pos (seg_mem_iff.mp hmem)]
    · rw [List.count_eq_zero_of_not_mem hmem,
        if_neg (fun hc => hmem (seg_mem_iff.mpr hc))]
  · intro hlt
    rw [hratio]
    exact List.Perm.eq_nil
      (hperm.trans (seg_nil_of_lt _ hlt ▸ List.Perm.refl _))

/-- C5 witness: on the fixture {10, 20, 30} with `ratio 0 0` the key 20
has rank 2 inside the band [1, 3] and is returned exactly once. -/
theorem ratio_returns_rank_band_witness :
    ((percW.ratio 0 0).count 20 =
      if ∃ i, i < (TreeNode.inorderKeys percW.points.root).length ∧
          (TreeNode.inorderKeys percW.points.root)[i]? = some 20 ∧
          Int.ceil ((0:ℚ) / 100 * (percW.points.length : ℚ)) + 1 ≤ (i : Int) + 1 ∧
          (i : Int) + 1 ≤
            percW.points.length -
              Int.ceil ((0:ℚ) / 100 * (percW.points.length : ℚ))
      then 1 else 0) ∧
    (percW.points.length - Int.ceil ((0:ℚ) / 100 * (percW.points.length : ℚ)) <
        Int.ceil ((0:ℚ) / 100 * (percW.points.length : ℚ)) + 1 →
      percW.ratio 0 0 = []) :=
  ratio_returns_rank_band percW (by decide) (by decide) (by decide) 0 0
    (by norm_num) (by norm_num) (by norm_num) (by norm_num) 20

/-- C3 counterexample: inserting {0..49} in the order `order12` (12 first,
then 0,…,11,13,…,49) and calling `ratio(15, 66)` returns
[12, 8, 9, 10, 11, 13, 14, 15, 16] — the pre-order emission of the band,
which is not the ascending list [8, …, 16] the claim demands for every
insertion order. -/
theorem ratio_not_ascending_counterexample :
    Percentiles.add_all Percentiles.empty order12 = .ok perc12 ∧
      perc12.ratio 15 66 = [12, 8, 9, 10, 11, 13, 14, 15, 16] ∧
      ([12, 8, 9, 10, 11, 13, 14, 15, 16] : List Int) ≠
        [8, 9, 10, 11, 12, 13, 14, 15, 16] := by
  refine ⟨rfl, ?_, by decide⟩
  have hlen : perc12.points.length = 50 := by decide
  have h8 : Int.ceil ((15:ℚ) / 100 * ((50:Int):ℚ)) = 8 := by
    rw [Int.ceil_eq_iff] <;> norm_num
  have h33 : Int.ceil ((66:ℚ) / 100 * ((50:Int):ℚ)) = 33 := by
    rw [Int.ceil_eq_iff] <;> norm_num
  have hratio : perc12.ratio 15 66 =
      TreeNode.ratio_aux perc12.points.root 9 17 := by
    show TreeNode.ratio_aux perc12.points.root
        (Int.ceil ((15:ℚ) / 100 * (perc12.points.length : ℚ)) + 1)
        (perc12.points.length -
          Int.ceil ((66:ℚ) / 100 * (perc12.points.length : ℚ))) = _
    rw [hlen, h8, h33]
    norm_num
  rw [hratio]
  decide

/-- C3 (amended): for every insertion order of the 50 values {0..49}, the
insertions all succeed and `ratio(15, 66)` returns exactly the integers 8
through 16, each exactly once — but in the tree's pre-order, which is the
ascending order only for some insertion orders (e.g. the ascending one),
not for all. -/
theorem ratio_15_66_returns_8_to_16 (l : List Int)
    (hl : List.Perm l range50) :
    ∃ p, Percentiles.add_all Percentiles.empty l = .ok p ∧
      List.Perm (p.ratio 15 66) [8, 9, 10, 11, 12, 13, 14, 15, 16] := by
  have hnd : l.Nodup := hl.nodup_iff.mpr (by decide)
  rcases add_all_ok (p := Percentiles.empty) (by decide) (by decide)
      (by decide) hnd
      (by simp [Percentiles.empty, OSTree.empty, TreeNode.inorderKeys]) with
    ⟨q, hq, hqb, hqs, hql, hqp⟩
  refine ⟨q, hq, ?_⟩
  have hperm : List.Perm (TreeNode.inorderKeys q.points.root) range50 := by
    refine List.Perm.trans ?_ hl
    simpa using hqp
  haveI : IsAntisymm Int (fun a b => a < b) :=
    ⟨fun a b h1 h2 => absurd (lt_trans h1 h2) (lt_irrefl a)⟩
  have heq : TreeNode.inorderKeys q.points.root = range50 :=
    List.eq_of_perm_of_sorted hperm (TreeNode.sorted_inorder hqb) (by decide)
  have hcount : TreeNode.count q.points.root = 50 := by
    rw [← TreeNode.length_inorderKeys, heq]
    decide
  have hlen50 : q.points.length = 50 := by
    rw [hql, hcount]
    norm_num
  have h8 : Int.ceil ((15:ℚ) / 100 * ((50:Int):ℚ)) = 8 := by
    rw [Int.ceil_eq_iff] <;> norm_num
  have h33 : Int.ceil ((66:ℚ) / 100 * ((50:Int):ℚ)) = 33 := by
    rw [Int.ceil_eq_iff] <;> norm_num
  have hratio : q.ratio 15 66 = TreeNode.ratio_aux q.points.root 9 17 := by
    show TreeNode.ratio_aux q.points.root
        (Int.ceil ((15:ℚ) / 100 * (q.points.length : ℚ)) + 1)
        (q.points.length -
          Int.ceil ((66:ℚ) / 100 * (q.points.length : ℚ))) = _
    rw [hlen50, h8, h33]
    norm_num
  rw [hratio]
  refine List.Perm.trans (ratio_aux_perm _ hqs 9 17) ?_
  rw [heq]
  have hseg : seg range50 9 17 = [8, 9, 10, 11, 12, 13, 14, 15, 16] := by
    decide
  rw [hseg]

/-- C3 witness: the ascending insertion order 0,…,49 is a permutation of
{0..49}, and the resulting ratio list is a permutation of [8, …, 16]. -/
theorem ratio_15_66_returns_8_to_16_witness :
    List.Perm range50 range50 ∧
      ∃ p, Percentiles.add_all Percentiles.empty range50 = .ok p ∧
        List.Perm (p.ratio 15 66) [8, 9, 10, 11, 12, 13, 14, 15, 16] :=
  ⟨List.Perm.refl range50,
   ratio_15_66_returns_8_to_16 range50 (List.Perm.refl range50)⟩

/-- C8 counterexample: `pts18` is a list of 18 pairwise-distinct points,
yet `make_ordering` does not return a list at all — two points share an
x-coordinate, so building the per-axis percentile containers raises the
duplicate-key error of the underlying tree, which propagates out of
`make_ordering`. -/
theorem make_ordering_raises_on_shared_coordinate :
    pts18.Nodup ∧ pts18.length = 18 ∧
      make_ordering pts18 = .error dupItemMsg := by
  refine ⟨by decide, by decide, ?_⟩
  rfl

/-- C8 (amended): whenever `make_ordering` returns a list on a
pairwise-distinct input — which it fails to do exactly when, in some
recursive call on at least 18 points, two points share a coordinate on
some axis and the duplicate-key error propagates — the returned list is a
permutation of the input: same length, same multiset, no point dropped or
duplicated. -/
theorem make_ordering_perm_of_ok {pts out : List Pt} (hnd : pts.Nodup)
    (h : make_ordering pts = .ok out) : List.Perm out pts :=
  make_ordering_aux_perm pts.length pts out hnd h

/-- C8 witness: a 2-point input (below the base-case threshold 18) is
returned unchanged, a permutation of itself. -/
theorem make_ordering_perm_of_ok_witness :
    ([((1:Int), (2:Int), (3:Int)), ((4:Int), (5:Int), (6:Int))] : List Pt).Nodup ∧
      make_ordering [((1:Int), (2:Int), (3:Int)), ((4:Int), (5:Int), (6:Int))] =
        .ok [((1:Int), (2:Int), (3:Int)), ((4:Int), (5:Int), (6:Int))] ∧
      List.Perm
        ([((1:Int), (2:Int), (3:Int)), ((4:Int), (5:Int), (6:Int))] : List Pt)
        [((1:Int), (2:Int), (3:Int)), ((4:Int), (5:Int), (6:Int))] :=
  ⟨by decide, rfl, make_ordering_perm_of_ok (by decide) rfl⟩

end FIT1008
